import Mathlib

/-!
Verification of the class FilterClassifier in opusfilter/classifier.py.

A shallow embedding of the filter classifier in `src/opusfilter/classifier.py`.
Numeric feature values are embedded as rationals (`ℚ`); the information
criteria, which take logarithms, live in `ℝ`.  Tables (pandas `DataFrame`s
built from flat JSON records) are embedded as ordered association lists from
column name to column values, matching pandas' insertion-ordered columns.

External capabilities consumed by the code (sklearn's logistic regression,
`roc_auc_score`, `json.loads`, pandas `json_normalize`) are not part of the
repository; they are modelled explicitly, marked `Modelled from the spec:` in
their doc comments.
-/

namespace NHFilter

/-- Python exceptions that operations of `FilterClassifier` can raise,
embedded as an error type for `Except`.
`malformedRecord` stands for the JSON decoding error raised by `json.loads`
on an invalid line (the spec calls it `MalformedRecordError`);
`degenerateLabels` for the error raised by classifier fitting when all labels
are identical (the spec's `DegenerateLabelsError`);
`keyError` for the `KeyError` raised by `DataFrame.pop` on a missing column;
`nameError` for the `NameError` raised when `find_best_model` is called with
an unknown criterion string (`crit_value` is unbound at its first use);
`typeError` for the `TypeError` raised by subscripting `None`
(`best[2]` in `find_best_model` when the sweep was empty). -/
inductive PyError where
  | malformedRecord
  | degenerateLabels
  | keyError
  | nameError
  | typeError
  deriving DecidableEq, Repr

/-- A fitted sklearn model (`LogisticRegression` after `fit`), embedded
abstractly by its two observable operations used in the source:
`predict` (predicted class per row of a table) and `predict_proba`
(pair of class-0 and class-1 probabilities per row). -/
structure Model where
  predict : List (String × List ℚ) → List ℚ
  predict_proba : List (String × List ℚ) → List (ℚ × ℚ)

/-- The state a `FilterClassifier` instance carries between method calls
(the attributes assigned in `__init__`), for a run whose tables are fully
numeric: `df_training_data` (= `training_data`), `dev_data` with the popped
`dev_labels`, `tbc_data`, and `discard_thresholds`.  `fitModel` is the
success case of the external `LogisticRegression(solver='liblinear').fit`
backend: the fitted model obtained from a feature table and a label vector. -/
structure Env where
  df_training_data : List (String × List ℚ)
  dev_data : List (String × List ℚ)
  dev_labels : List ℚ
  tbc_data : List (String × List ℚ)
  discard_thresholds : List ℚ
  fitModel : List (String × List ℚ) → List ℕ → Model

/-- Embeds `df.shape[1]`: the number of feature columns of the training table. -/
def ncols (env : Env) : ℕ := env.df_training_data.length

/-- Embeds `df.shape[0]` / `len(df.index)`: the number of rows of the training
table (all columns of a normalized table have this length). -/
def nrows (env : Env) : ℕ :=
  (env.df_training_data.head?.map (fun p => p.2.length)).getD 0

/-- Python's substring test `pat in hay` on character lists. -/
def containsSub (hay pat : List Char) : Bool :=
  match hay with
  | [] => pat.isEmpty
  | _ :: t => pat.isPrefixOf hay || containsSub t pat

/-- The check `'CrossEntropyFilter' in key` from `set_cutoffs` and
`add_labels`: the feature name marks a cross-entropy-style filter. -/
def isCE (key : String) : Bool :=
  containsSub key.data "CrossEntropyFilter".data

/-- Embeds `pandas.Series.quantile` with the default linear interpolation
(an external numeric capability): on the sorted values `v₀ ≤ … ≤ v_{n-1}`,
with `h = q·(n-1)`, the result is `v_⌊h⌋ + (h - ⌊h⌋)·(v_{⌊h⌋+1} - v_⌊h⌋)`. -/
def quantile (col : List ℚ) (q : ℚ) : ℚ :=
  let s := List.insertionSort (fun a b : ℚ => a ≤ b) col
  let n := s.length
  let h : ℚ := q * ((n : ℚ) - 1)
  let i : ℕ := (⌊h⌋).toNat
  let lo := s.getD i 0
  let hi := s.getD (i + 1) lo
  lo + (h - (⌊h⌋ : ℚ)) * (hi - lo)

/-- The column of the training table named `k`
(`self.df_training_data[key]`; first matching column). -/
def colOf (env : Env) (k : String) : List ℚ :=
  ((env.df_training_data.find? (fun p => p.1 == k)).map Prod.snd).getD []

/-- Embeds `self.training_data[key][i]`: entry `i` of the training column `k`. -/
def valAt (env : Env) (k : String) (i : ℕ) : ℚ := (colOf env k).getD i 0

/-- Embeds `FilterClassifier.set_cutoffs`: for each key of the cutoff dictionary
(its keys are the training columns; values are overwritten on every call, so
only the keys matter), a `CrossEntropyFilter` feature gets the
`(1 - discard)`-quantile of its training column, any other feature the
`discard`-quantile. -/
def set_cutoffs (env : Env) (discard : ℚ) (keys : List String) :
    List (String × ℚ) :=
  keys.map (fun k =>
    (k, if isCE k then quantile (colOf env k) (1 - discard)
        else quantile (colOf env k) discard))

/-- Embeds `FilterClassifier.add_labels`: for each row `i`, start from label `1`
and zero it whenever a `CrossEntropyFilter` feature exceeds its cutoff or a
regular feature falls below its cutoff. -/
def add_labels (env : Env) (cutoffs : List (String × ℚ)) : List ℕ :=
  (List.range (nrows env)).map (fun i =>
    cutoffs.foldl (fun label p =>
      if isCE p.1 then (if p.2 < valAt env p.1 i then 0 else label)
      else (if valAt env p.1 i < p.2 then 0 else label)) 1)

/-- All labels of the vector are identical (the degenerate single-class
condition on which classifier fitting fails). -/
def allSame (ys : List ℕ) : Bool :=
  match ys with
  | [] => true
  | y :: t => t.all (fun z => z == y)

/-- Embeds `FilterClassifier.train_logreg`.  Modelled from the spec: the actual
fitting (`LogisticRegression(solver='liblinear').fit`, sklearn) is external
to the repository; per spec §4.3 it fails with `DegenerateLabelsError` when
all labels are identical and is otherwise deterministic, returning the
fitted model `env.fitModel` of the training features and the label vector. -/
def train_logreg (env : Env) (ys : List ℕ) : Except PyError Model :=
  if allSame ys then .error .degenerateLabels
  else .ok (env.fitModel env.df_training_data ys)

/-- Modelled from the spec: `sklearn.metrics.roc_auc_score` (external).
The area under the ROC curve of `scores` against binary `labels`
(positive class = label `1`), i.e. the Mann-Whitney statistic: the
fraction of (positive, negative) pairs ranked correctly, ties counting
one half. -/
def roc_auc_score (labels scores : List ℚ) : ℚ :=
  let pairs := labels.zip scores
  let pos := (pairs.filter (fun p => p.1 == 1)).map Prod.snd
  let neg := (pairs.filter (fun p => !(p.1 == 1))).map Prod.snd
  (pos.map (fun s =>
    (neg.map (fun t =>
      if t < s then (1 : ℚ) else if t == s then 1/2 else 0)).sum)).sum
    / ((pos.length : ℚ) * (neg.length : ℚ))

/-- Embeds `FilterClassifier.get_roc_auc`: the maximum of the ROC AUC of the
class-0 probability column and of the class-1 probability column of the
model on the dev data, against the dev labels.  (The `pred` and `score`
locals of the source are unused and side-effect free.) -/
def get_roc_auc (env : Env) (m : Model) : ℚ :=
  let probs := m.predict_proba env.dev_data
  max (roc_auc_score env.dev_labels (probs.map Prod.fst))
      (roc_auc_score env.dev_labels (probs.map Prod.snd))

/-- Embeds `FilterClassifier.get_sse`: the residual sum of squares between the
label vector and the model's predicted classes on the training table,
plus the constant `0.01`. -/
def get_sse (env : Env) (ys : List ℕ) (m : Model) : ℚ :=
  ((ys.zip (m.predict env.df_training_data)).map
    (fun p => ((p.1 : ℚ) - p.2) ^ 2)).sum + 1/100

/-- Embeds `FilterClassifier.get_aic`: `2·k − 2·ln(SSE)` with `k` the number of
training columns. -/
noncomputable def get_aic (env : Env) (ys : List ℕ) (m : Model) : ℝ :=
  2 * (ncols env : ℝ) - 2 * Real.log ((get_sse env ys m : ℚ) : ℝ)

/-- Embeds `FilterClassifier.get_bic`: `ln(n)·k − 2·ln(SSE)` with `k` the number of
training columns and `n` the number of training rows. -/
noncomputable def get_bic (env : Env) (ys : List ℕ) (m : Model) : ℝ :=
  Real.log (nrows env : ℝ) * (ncols env : ℝ)
    - 2 * Real.log ((get_sse env ys m : ℚ) : ℝ)

/-- The keys of the cutoff dictionary built at the start of
`find_best_model` (`{key: None for key in self.df_training_data.keys()}`):
the training column names in order. -/
def keysOf (env : Env) : List String := env.df_training_data.map Prod.fst

/-- The pseudo-label vector computed at sweep step `d` of
`find_best_model` (`set_cutoffs` followed by `add_labels`). -/
def labelsAt (env : Env) (d : ℚ) : List ℕ :=
  add_labels env (set_cutoffs env d (keysOf env))

/-- The fitted model of sweep step `d` (the success value of
`train_logreg` on that step's pseudo-labels). -/
def modelAt (env : Env) (d : ℚ) : Model :=
  env.fitModel env.df_training_data (labelsAt env d)

/-- The criterion value computed at sweep step `d` of `find_best_model`
for a valid criterion string. -/
noncomputable def scoreAt (env : Env) (criterion : String) (d : ℚ) : ℝ :=
  if criterion = "roc_auc" then ((get_roc_auc env (modelAt env d) : ℚ) : ℝ)
  else if criterion = "AIC" then get_aic env (labelsAt env d) (modelAt env d)
  else get_bic env (labelsAt env d) (modelAt env d)

/-- The `(model, criterion value, discard threshold)` triple that sweep
step `d` contributes as a candidate. -/
noncomputable def tripleAt (env : Env) (criterion : String) (d : ℚ) :
    Model × ℝ × ℚ :=
  (modelAt env d, scoreAt env criterion d, d)

/-- The comparison `find_best_model` makes against the incumbent: a new
criterion value `a` replaces the retained value `b` iff `a > b` for the
`roc_auc` criterion (maximize) and iff `a < b` otherwise (minimize). -/
def improves (criterion : String) (a b : ℝ) : Prop :=
  if criterion = "roc_auc" then b < a else a < b

open scoped Classical in
/-- The sweep loop of `FilterClassifier.find_best_model` over the remaining
discard thresholds, carrying the retained best triple (`None` initially).
Each step recomputes cutoffs and labels, fits (propagating the degenerate-
labels failure), dispatches on the criterion string (an unknown criterion
leaves `crit_value` unbound at its first use: `NameError`), and replaces the
incumbent only on strict improvement.  After the loop, the source logs
`best[2]`, which raises `TypeError` when `best` is still `None`. -/
noncomputable def fbmLoop (env : Env) (criterion : String) :
    List ℚ → Option (Model × ℝ × ℚ) → Except PyError (Model × ℝ × ℚ)
  | [], none => .error .typeError
  | [], some b => .ok b
  | d :: ds, best =>
    match train_logreg env (labelsAt env d) with
    | .error e => .error e
    | .ok m =>
      match (if criterion = "roc_auc" then some ((get_roc_auc env m : ℚ) : ℝ)
             else if criterion = "AIC" then some (get_aic env (labelsAt env d) m)
             else if criterion = "BIC" then some (get_bic env (labelsAt env d) m)
             else none) with
      | none => .error .nameError
      | some cv =>
        fbmLoop env criterion ds
          (if criterion = "roc_auc" then
            match best with
            | none => some (m, cv, d)
            | some b => if b.2.1 < cv then some (m, cv, d) else some b
          else
            match best with
            | none => some (m, cv, d)
            | some b => if cv < b.2.1 then some (m, cv, d) else some b)

/-- Embeds `FilterClassifier.find_best_model`: run the sweep loop over
`discard_thresholds` starting from no incumbent. -/
noncomputable def find_best_model (env : Env) (criterion : String) :
    Except PyError (Model × ℝ × ℚ) :=
  fbmLoop env criterion env.discard_thresholds none

/-- Modelled from the spec: `json.loads` (external) applied to one line of
an input file.  A line is either not valid JSON (`none`) or parses to a flat
record of feature names to numeric values. -/
def JsonLine : Type := Option (List (String × ℚ))

/-- Embeds `FilterClassifier.load_data`: parse the lines of a jsonlines file in
order, collecting the records; the JSON decoding error of the first invalid
line aborts the load. -/
def load_data : List JsonLine → Except PyError (List (List (String × ℚ)))
  | [] => .ok []
  | (none : JsonLine) :: _ => .error .malformedRecord
  | (some r : JsonLine) :: ls => (load_data ls).map (r :: ·)

/-- Modelled from the spec: `pandas.io.json.json_normalize` (external) on a
list of flat records: the columns are the record keys in order of first
appearance; a record without a key contributes `NaN` (`none`) to that
key's column. -/
def json_normalize (rs : List (List (String × ℚ))) :
    List (String × List (Option ℚ)) :=
  let keys := (rs.flatMap (fun r => r.map Prod.fst)).foldl
    (fun acc k => if k ∈ acc then acc else acc ++ [k]) []
  keys.map (fun k => (k, rs.map (fun r => r.lookup k)))

/-- The table construction `__init__` performs for `training_scores` and for
`to_be_classified`: load the jsonlines file and normalize it into a data
frame.  No column is removed — in particular a `label` column stays. -/
def init_table (ls : List JsonLine) :
    Except PyError (List (String × List (Option ℚ))) :=
  (load_data ls).map json_normalize

/-- The table construction `__init__` performs for `dev_scores`: load and
normalize, then `pop('label')` — remove the `label` column and keep it
separately as `dev_labels` (a missing `label` column raises `KeyError`). -/
def init_dev (ls : List JsonLine) :
    Except PyError ((List (String × List (Option ℚ))) × List (Option ℚ)) :=
  (load_data ls).bind (fun rs =>
    let df := json_normalize rs
    match df.lookup "label" with
    | none => .error .keyError
    | some labs => .ok (df.filter (fun p => !(p.1 == "label")), labs))

/-- Round a rational to the nearest integer, ties to even — the rounding
C's `printf`-family formatting (used by Python's `'{0:.10f}'.format`)
applies to the decimal digits. -/
def rnd (x : ℚ) : ℤ :=
  if x - (⌊x⌋ : ℚ) < 1/2 then ⌊x⌋
  else if 1/2 < x - (⌊x⌋ : ℚ) then ⌊x⌋ + 1
  else if ⌊x⌋ % 2 = 0 then ⌊x⌋ else ⌊x⌋ + 1

/-- The character of a decimal digit. -/
def digitChar (d : ℕ) : Char := Char.ofNat (d + 48)

/-- The decimal digit string of a natural number (most significant first;
`0` prints as `"0"`). -/
def natChars (n : ℕ) : List Char :=
  if n = 0 then ['0'] else ((Nat.digits 10 n).map digitChar).reverse

/-- The fractional part of the fixed-point rendering: exactly ten decimal
digits, left-padded with zeros. -/
def padChars (r : ℕ) : List Char :=
  List.replicate (10 - (Nat.digits 10 r).length) '0'
    ++ ((Nat.digits 10 r).map digitChar).reverse

/-- The characters `'{0:.10f}'.format(q)` produces: the sign, then the
integer part, a point, and exactly ten fractional digits of the value
rounded to ten decimal places. -/
def fmtChars (q : ℚ) : List Char :=
  let N := rnd (q * 10 ^ 10)
  if N < 0 then
    '-' :: (natChars (N.natAbs / 10 ^ 10) ++ '.' :: padChars (N.natAbs % 10 ^ 10))
  else natChars (N.toNat / 10 ^ 10) ++ '.' :: padChars (N.toNat % 10 ^ 10)

/-- Embeds the format call of `assign_probabilities`: fixed-point decimal with ten fractional
digits. -/
def format10 (q : ℚ) : String := String.mk (fmtChars q)

/-- Embeds `FilterClassifier.assign_probabilities`: the lines written to the
output file — one per row of the to-be-classified table, in order, each the
fixed-point rendering of the row's class-1 probability. -/
def assign_probabilities (env : Env) (m : Model) : List String :=
  ((m.predict_proba env.tbc_data).map Prod.snd).map format10

/-- A character is a decimal digit. -/
def isDigitCh (c : Char) : Bool := 48 ≤ c.toNat && c.toNat ≤ 57

/-- The digit value of a character. -/
def charToDigit (c : Char) : ℕ := c.toNat - 48

/-- The natural number denoted by a big-endian decimal digit string. -/
def digitsToNat (cs : List Char) : ℕ :=
  cs.foldl (fun acc c => 10 * acc + charToDigit c) 0

/-- Split a character list at its first `'.'`. -/
def splitDot : List Char → Option (List Char × List Char)
  | [] => none
  | c :: t => if c = '.' then some ([], t)
      else (splitDot t).map (fun p => (c :: p.1, p.2))

/-- Parse a line of the probability file: a non-negative fixed-point
decimal with exactly ten fractional digits. -/
def parseFixed10 (s : String) : Option ℚ :=
  (splitDot s.data).bind (fun p =>
    if p.1 ≠ [] ∧ p.2.length = 10 ∧ (p.1 ++ p.2).all isDigitCh then
      some ((digitsToNat p.1 : ℚ) + (digitsToNat p.2 : ℚ) / 10 ^ 10)
    else none)

/-- The condition under which the `add_labels` loop zeroes the label of
row `i` at feature `p`: a cross-entropy-style feature whose value exceeds
its cutoff, or a regular feature whose value falls below its cutoff. -/
def rowFails (env : Env) (i : ℕ) (p : String × ℚ) : Prop :=
  if isCE p.1 then p.2 < valAt env p.1 i else valAt env p.1 i < p.2

instance (env : Env) (i : ℕ) (p : String × ℚ) : Decidable (rowFails env i p) := by
  unfold rowFails
  split <;> infer_instance

lemma add_labels_foldl (env : Env) (i : ℕ) (cutoffs : List (String × ℚ))
    (init : ℕ) :
    cutoffs.foldl (fun label p =>
      if isCE p.1 then (if p.2 < valAt env p.1 i then 0 else label)
      else (if valAt env p.1 i < p.2 then 0 else label)) init
    = if ∀ p ∈ cutoffs, ¬ rowFails env i p then init else 0 := by
  induction cutoffs generalizing init with
  | nil => simp
  | cons p rest ih =>
    by_cases hp : rowFails env i p
    · have hstep : (if isCE p.1 then (if p.2 < valAt env p.1 i then 0 else init)
          else (if valAt env p.1 i < p.2 then 0 else init)) = 0 := by
        unfold rowFails at hp
        split at hp <;> simp_all
      have hnot : ¬ (∀ q ∈ p :: rest, ¬ rowFails env i q) := by
        intro hall
        exact hall p (List.mem_cons_self p rest) hp
      simp only [List.foldl_cons, hstep, ih, if_neg hnot, ite_self]
    · have hstep : (if isCE p.1 then (if p.2 < valAt env p.1 i then 0 else init)
          else (if valAt env p.1 i < p.2 then 0 else init)) = init := by
        unfold rowFails at hp
        split at hp <;> simp_all
      simp only [List.foldl_cons, hstep, ih]
      by_cases hall : ∀ q ∈ rest, ¬ rowFails env i q
      · have : ∀ q ∈ p :: rest, ¬ rowFails env i q := by
          intro q hq
          rcases List.mem_cons.1 hq with h | h
          · exact h ▸ hp
          · exact hall q h
        rw [if_pos hall, if_pos this]
      · have : ¬ (∀ q ∈ p :: rest, ¬ rowFails env i q) := fun h =>
          hall (fun q hq => h q (List.mem_cons_of_mem p hq))
        rw [if_neg hall, if_neg this]

lemma find_assoc {α : Type} (l : List (String × α))
    (hnd : (l.map Prod.fst).Nodup) {k : String} {col : α}
    (h : (k, col) ∈ l) : l.find? (fun p => p.1 == k) = some (k, col) := by
  induction l with
  | nil => cases h
  | cons p rest ih =>
    rw [List.map_cons, List.nodup_cons] at hnd
    rcases List.mem_cons.1 h with h | h
    · subst h
      simp [List.find?]
    · have hne : ¬ (p.1 == k) = true := by
        intro hk
        exact hnd.1 (by
          rw [show p.1 = k from by simpa using hk]
          exact List.mem_map_of_mem Prod.fst h)
      simp only [List.find?, hne]
      exact ih hnd.2 h

lemma colOf_eq (env : Env) (hnodup : (keysOf env).Nodup) {k : String}
    {col : List ℚ} (h : (k, col) ∈ env.df_training_data) :
    colOf env k = col := by
  unfold colOf
  rw [find_assoc env.df_training_data hnodup h]
  rfl

lemma add_labels_getD (env : Env) (cutoffs : List (String × ℚ)) (i : ℕ)
    (hi : i < nrows env) :
    (add_labels env cutoffs).getD i 0
    = cutoffs.foldl (fun label p =>
        if isCE p.1 then (if p.2 < valAt env p.1 i then 0 else label)
        else (if valAt env p.1 i < p.2 then 0 else label)) 1 := by
  unfold add_labels
  rw [List.getD_eq_getElem?_getD, List.getElem?_map, List.getElem?_range hi]
  rfl

/-- C1.  For every training table, discard fraction `d` and feature: a
feature whose name marks it as a cross-entropy-style filter
(`'CrossEntropyFilter' in key`) is assigned the `(1-d)`-quantile of its
column as cutoff, every other feature the `d`-quantile; a row passes a
cross-entropy feature iff its value is `≤` the cutoff and any other feature
iff its value is `≥` the cutoff; row `i` receives pseudo-label 1 iff it
passes every feature's rule, else 0. -/
theorem add_labels_conjunctive_quantile_gate (env : Env) (d : ℚ)
    (hnodup : (keysOf env).Nodup) (i : ℕ) (hi : i < nrows env) :
    (∀ k col, (k, col) ∈ env.df_training_data →
      (k, quantile col (if isCE k then 1 - d else d))
        ∈ set_cutoffs env d (keysOf env))
    ∧ ((add_labels env (set_cutoffs env d (keysOf env))).getD i 0 = 1 ↔
        ∀ p ∈ set_cutoffs env d (keysOf env),
          if isCE p.1 then valAt env p.1 i ≤ p.2 else p.2 ≤ valAt env p.1 i)
    ∧ ((add_labels env (set_cutoffs env d (keysOf env))).getD i 0 = 0
        ∨ (add_labels env (set_cutoffs env d (keysOf env))).getD i 0 = 1)
    ∧ (add_labels env (set_cutoffs env d (keysOf env))).length = nrows env := by
  refine ⟨?_, ?_, ?_, ?_⟩
  · intro k col hk
    have hcol : colOf env k = col := colOf_eq env hnodup hk
    have hmem : k ∈ keysOf env := List.mem_map_of_mem Prod.fst hk
    unfold set_cutoffs
    have : (k, if isCE k then quantile (colOf env k) (1 - d)
        else quantile (colOf env k) d) ∈ (keysOf env).map (fun k =>
          (k, if isCE k then quantile (colOf env k) (1 - d)
              else quantile (colOf env k) d)) :=
      List.mem_map_of_mem _ hmem
    rwa [hcol, ← apply_ite (quantile col)] at this
  · rw [add_labels_getD env _ i hi, add_labels_foldl]
    have hpoint : ∀ p ∈ set_cutoffs env d (keysOf env),
        (¬ rowFails env i p ↔
          if isCE p.1 then valAt env p.1 i ≤ p.2 else p.2 ≤ valAt env p.1 i) := by
      intro p _
      by_cases hce : isCE p.1 <;> simp [rowFails, hce, not_lt]
    by_cases hP : ∀ p ∈ set_cutoffs env d (keysOf env), ¬ rowFails env i p
    · rw [if_pos hP]
      exact ⟨fun _ p hp => (hpoint p hp).1 (hP p hp), fun _ => rfl⟩
    · rw [if_neg hP]
      constructor
      · intro h
        exact absurd h (by simp)
      · intro hall
        exact absurd (fun p hp => (hpoint p hp).2 (hall p hp)) hP
  · rw [add_labels_getD env _ i hi, add_labels_foldl]
    split
    · right; rfl
    · left; rfl
  · unfold add_labels
    rw [List.length_map, List.length_range]

/-- A trivial fitted model, used to build concrete environments. -/
def trivModel : Model := ⟨fun _ => [], fun _ => []⟩

/-- A concrete two-row training table with one regular and one
cross-entropy-style feature. -/
def envC1 : Env :=
  { df_training_data := [("f1", [1, 2]), ("CrossEntropyFilter_f2", [3, 4])]
    dev_data := []
    dev_labels := []
    tbc_data := []
    discard_thresholds := []
    fitModel := fun _ _ => trivModel }

/-- Witness for C1 at a concrete table, discard fraction 1/2 and row 0. -/
theorem add_labels_conjunctive_quantile_gate_witness :
    (keysOf envC1).Nodup ∧ 0 < nrows envC1 ∧
    ((∀ k col, (k, col) ∈ envC1.df_training_data →
      (k, quantile col (if isCE k then 1 - (1/2 : ℚ) else 1/2))
        ∈ set_cutoffs envC1 (1/2) (keysOf envC1))
    ∧ ((add_labels envC1 (set_cutoffs envC1 (1/2) (keysOf envC1))).getD 0 0 = 1 ↔
        ∀ p ∈ set_cutoffs envC1 (1/2) (keysOf envC1),
          if isCE p.1 then valAt envC1 p.1 0 ≤ p.2 else p.2 ≤ valAt envC1 p.1 0)
    ∧ ((add_labels envC1 (set_cutoffs envC1 (1/2) (keysOf envC1))).getD 0 0 = 0
        ∨ (add_labels envC1 (set_cutoffs envC1 (1/2) (keysOf envC1))).getD 0 0 = 1)
    ∧ (add_labels envC1 (set_cutoffs envC1 (1/2) (keysOf envC1))).length
        = nrows envC1) :=
  ⟨by decide, by decide,
    add_labels_conjunctive_quantile_gate envC1 (1/2) (by decide) 0 (by decide)⟩

/-- C3.  The AIC score is `2k − 2·ln(SSE)` and the BIC score is
`ln(n)·k − 2·ln(SSE)`, where `k` is the number of feature columns, `n` the
number of training rows and `SSE` the sum of squared residuals between the
model's predicted class and the pseudo-labels on the training table plus
the constant 0.01; `SSE ≥ 0.01` always holds, so the logarithms are taken
at a strictly positive argument and both scores are (deterministic,
finite) real values. -/
theorem aic_bic_formulas_and_sse_bound (env : Env) (ys : List ℕ) (m : Model) :
    get_aic env ys m
      = 2 * (ncols env : ℝ) - 2 * Real.log ((get_sse env ys m : ℚ) : ℝ)
    ∧ get_bic env ys m
      = Real.log (nrows env : ℝ) * (ncols env : ℝ)
        - 2 * Real.log ((get_sse env ys m : ℚ) : ℝ)
    ∧ get_sse env ys m
      = ((ys.zip (m.predict env.df_training_data)).map
          (fun p => ((p.1 : ℚ) - p.2) ^ 2)).sum + 1/100
    ∧ (1/100 : ℚ) ≤ get_sse env ys m := by
  refine ⟨rfl, rfl, rfl, ?_⟩
  have hnn : (0 : ℚ) ≤ ((ys.zip (m.predict env.df_training_data)).map
      (fun p => ((p.1 : ℚ) - p.2) ^ 2)).sum := by
    apply List.sum_nonneg
    intro x hx
    rcases List.mem_map.1 hx with ⟨p, _, hp⟩
    rw [← hp]
    exact sq_nonneg _
  unfold get_sse
  linarith

/-- The model obtained by swapping the roles of the positive and the
negative class: its probability columns are exchanged. -/
def swapClasses (m : Model) : Model :=
  ⟨m.predict, fun X => (m.predict_proba X).map Prod.swap⟩

/-- C8.  The discrimination score is the maximum of the ROC AUC of the
class-0 probability column and that of the class-1 probability column
against the held-out labels, and is unchanged when the roles of the
positive and the negative class are swapped. -/
theorem get_roc_auc_is_max_and_swap_symmetric (env : Env) (m : Model) :
    get_roc_auc env m
      = max (roc_auc_score env.dev_labels
              ((m.predict_proba env.dev_data).map Prod.fst))
            (roc_auc_score env.dev_labels
              ((m.predict_proba env.dev_data).map Prod.snd))
    ∧ get_roc_auc env (swapClasses m) = get_roc_auc env m := by
  refine ⟨rfl, ?_⟩
  unfold get_roc_auc swapClasses
  simp only [List.map_map]
  have h1 : (Prod.fst ∘ Prod.swap : ℚ × ℚ → ℚ) = Prod.snd := rfl
  have h2 : (Prod.snd ∘ Prod.swap : ℚ × ℚ → ℚ) = Prod.fst := rfl
  rw [h1, h2, max_comm]

lemma improves_irrefl (crit : String) (a : ℝ) : ¬ improves crit a a := by
  unfold improves
  split <;> exact lt_irrefl a

lemma improves_trans (crit : String) {a b c : ℝ} (h1 : improves crit a b)
    (h2 : improves crit b c) : improves crit a c := by
  unfold improves at *
  split at h1 <;> simp_all <;> linarith

lemma improves_total (crit : String) (a b : ℝ) :
    improves crit a b ∨ improves crit b a ∨ a = b := by
  unfold improves
  split
  · rcases lt_trichotomy b a with h | h | h
    · exact Or.inl h
    · exact Or.inr (Or.inr h.symm)
    · exact Or.inr (Or.inl h)
  · rcases lt_trichotomy a b with h | h | h
    · exact Or.inl h
    · exact Or.inr (Or.inr h)
    · exact Or.inr (Or.inl h)

lemma improves_asymm (crit : String) {a b : ℝ} (h : improves crit a b) :
    ¬ improves crit b a := fun h2 =>
  improves_irrefl crit a (improves_trans crit h h2)

lemma improves_of_improves_of_not (crit : String) {a b c : ℝ}
    (hab : improves crit a b) (hac : ¬ improves crit a c) :
    improves crit c b := by
  rcases improves_total crit a c with h | h | h
  · exact absurd h hac
  · exact improves_trans crit h hab
  · exact h ▸ hab

lemma improves_of_improves_of_not_right (crit : String) {a b c : ℝ}
    (hab : improves crit a b) (hcb : ¬ improves crit c b) :
    improves crit a c := by
  rcases improves_total crit c b with h | h | h
  · exact absurd h hcb
  · exact improves_trans crit hab h
  · exact h ▸ hab

open scoped Classical in
/-- One update of the retained best triple in `find_best_model`: sweep step
`d` replaces the incumbent iff there is none yet or its criterion value
strictly improves on the incumbent's. -/
noncomputable def updBest (env : Env) (crit : String)
    (best : Option (Model × ℝ × ℚ)) (d : ℚ) : Option (Model × ℝ × ℚ) :=
  match best with
  | none => some (tripleAt env crit d)
  | some b => if improves crit (scoreAt env crit d) b.2.1
      then some (tripleAt env crit d) else some b

lemma fbmLoop_step (env : Env) (crit : String)
    (hcrit : crit = "roc_auc" ∨ crit = "AIC" ∨ crit = "BIC") (d : ℚ)
    (ds : List ℚ) (hnd : allSame (labelsAt env d) = false)
    (best : Option (Model × ℝ × ℚ)) :
    fbmLoop env crit (d :: ds) best
      = fbmLoop env crit ds (updBest env crit best d) := by
  have htl : train_logreg env (labelsAt env d) = .ok (modelAt env d) := by
    unfold train_logreg
    rw [hnd]
    rfl
  rcases hcrit with h | h | h <;> subst h <;> cases best with
  | none => simp [fbmLoop, htl, updBest, tripleAt, scoreAt, modelAt]
  | some b =>
    simp [fbmLoop, htl, updBest, tripleAt, scoreAt, improves, modelAt]

open scoped Classical in
lemma updBest_some (env : Env) (crit : String) (d0 d : ℚ) :
    updBest env crit (some (tripleAt env crit d0)) d
      = if improves crit (scoreAt env crit d) (scoreAt env crit d0)
        then some (tripleAt env crit d) else some (tripleAt env crit d0) := by
  unfold updBest tripleAt
  rfl

/-- The invariant of the sweep loop: started on the remaining thresholds
`ds` with the candidate of an already-processed step `d0` as incumbent, the
loop succeeds and returns the candidate of the first position of
`d0 :: ds` that no position strictly improves on (so on ties the earlier
position wins). -/
lemma fbmLoop_spec (env : Env) (crit : String)
    (hcrit : crit = "roc_auc" ∨ crit = "AIC" ∨ crit = "BIC") :
    ∀ (ds : List ℚ), (∀ d ∈ ds, allSame (labelsAt env d) = false) →
    ∀ (d0 : ℚ),
    ∃ pre post dstar, d0 :: ds = pre ++ dstar :: post ∧
      fbmLoop env crit ds (some (tripleAt env crit d0))
        = .ok (tripleAt env crit dstar) ∧
      (∀ d ∈ d0 :: ds,
        ¬ improves crit (scoreAt env crit d) (scoreAt env crit dstar)) ∧
      (∀ d ∈ pre,
        improves crit (scoreAt env crit dstar) (scoreAt env crit d)) := by
  intro ds
  induction ds with
  | nil =>
    intro _ d0
    refine ⟨[], [], d0, rfl, rfl, ?_, by simp⟩
    intro d hd
    rw [List.mem_singleton.1 hd]
    exact improves_irrefl crit _
  | cons d rest ih =>
    intro hnd d0
    have hndd : allSame (labelsAt env d) = false := hnd d (List.mem_cons_self d rest)
    have hndrest : ∀ x ∈ rest, allSame (labelsAt env x) = false :=
      fun x hx => hnd x (List.mem_cons_of_mem d hx)
    rw [fbmLoop_step env crit hcrit d rest hndd, updBest_some]
    by_cases himp : improves crit (scoreAt env crit d) (scoreAt env crit d0)
    · rw [if_pos himp]
      obtain ⟨pre', post', dstar, hdec, hloop, hopt, hfirst⟩ := ih hndrest d
      have hds : ¬ improves crit (scoreAt env crit d) (scoreAt env crit dstar) :=
        hopt d (List.mem_cons_self d rest)
      have hstar0 : improves crit (scoreAt env crit dstar) (scoreAt env crit d0) :=
        improves_of_improves_of_not crit himp hds
      refine ⟨d0 :: pre', post', dstar, by rw [hdec]; rfl, hloop, ?_, ?_⟩
      · intro x hx
        rcases List.mem_cons.1 hx with h | h
        · subst h
          intro hc
          exact improves_asymm crit hstar0 hc
        · exact hopt x h
      · intro x hx
        rcases List.mem_cons.1 hx with h | h
        · exact h ▸ hstar0
        · exact hfirst x h
    · rw [if_neg himp]
      obtain ⟨pre', post', dstar, hdec, hloop, hopt, hfirst⟩ := ih hndrest d0
      cases pre' with
      | nil =>
        have hd0 : dstar = d0 := by
          have := hdec
          simp at this
          exact this.1.symm
        have hpost : post' = rest := by
          have := hdec
          simp at this
          exact this.2.symm
        subst hd0
        refine ⟨[], d :: rest, dstar, rfl, hloop, ?_, by simp⟩
        intro x hx
        rcases List.mem_cons.1 hx with h | h
        · exact h ▸ improves_irrefl crit _
        · rcases List.mem_cons.1 h with h2 | h2
          · exact h2 ▸ himp
          · exact hopt x (List.mem_cons_of_mem dstar (hpost ▸ h2))
      | cons q pre'' =>
        have hq : q = d0 ∧ rest = pre'' ++ dstar :: post' := by
          have := hdec
          rw [List.cons_append] at this
          exact ⟨(List.cons.injEq _ _ _ _ ▸ this).1.symm,
            (List.cons.injEq _ _ _ _ ▸ this).2⟩
        have hstar0 : improves crit (scoreAt env crit dstar) (scoreAt env crit d0) :=
          hfirst d0 (hq.1 ▸ List.mem_cons_self q pre'')
        refine ⟨d0 :: d :: pre'', post', dstar, ?_, hloop, ?_, ?_⟩
        · rw [hq.2]
          rfl
        · intro x hx
          rcases List.mem_cons.1 hx with h | h
          · exact h ▸ hopt d0 (List.mem_cons_self d0 rest)
          · rcases List.mem_cons.1 h with h2 | h2
            · subst h2
              intro hc
              exact himp (improves_trans crit hc hstar0)
            · exact hopt x (List.mem_cons_of_mem d0 h2)
        · intro x hx
          rcases List.mem_cons.1 hx with h | h
          · exact h ▸ hstar0
          · rcases List.mem_cons.1 h with h2 | h2
            · exact h2 ▸ improves_of_improves_of_not_right crit hstar0 himp
            · exact hfirst x (hq.1 ▸ List.mem_cons_of_mem q h2)

lemma find_best_model_spec (env : Env) (crit : String)
    (hcrit : crit = "roc_auc" ∨ crit = "AIC" ∨ crit = "BIC")
    (hne : env.discard_thresholds ≠ [])
    (hnd : ∀ d ∈ env.discard_thresholds, allSame (labelsAt env d) = false) :
    ∃ pre post dstar, env.discard_thresholds = pre ++ dstar :: post ∧
      find_best_model env crit = .ok (tripleAt env crit dstar) ∧
      (∀ d ∈ env.discard_thresholds,
        ¬ improves crit (scoreAt env crit d) (scoreAt env crit dstar)) ∧
      (∀ d ∈ pre,
        improves crit (scoreAt env crit dstar) (scoreAt env crit d)) := by
  obtain ⟨t0, ts, hthr⟩ : ∃ t0 ts, env.discard_thresholds = t0 :: ts := by
    cases h : env.discard_thresholds with
    | nil => exact absurd h hne
    | cons a l => exact ⟨a, l, rfl⟩
  have hnd0 : allSame (labelsAt env t0) = false :=
    hnd t0 (hthr ▸ List.mem_cons_self t0 ts)
  have hndts : ∀ d ∈ ts, allSame (labelsAt env d) = false :=
    fun d hd => hnd d (hthr ▸ List.mem_cons_of_mem t0 hd)
  obtain ⟨pre, post, dstar, hdec, hloop, hopt, hfirst⟩ :=
    fbmLoop_spec env crit hcrit ts hndts t0
  refine ⟨pre, post, dstar, by rw [hthr, hdec], ?_, ?_, hfirst⟩
  · unfold find_best_model
    rw [hthr, fbmLoop_step env crit hcrit t0 ts hnd0 none]
    exact hloop
  · intro d hd
    rw [hthr] at hd
    exact hopt d hd

/-- C2.  For every non-empty sweep of discard fractions, every valid
criterion and every sweep whose steps all produce non-degenerate labels,
`find_best_model` returns the `(model, criterion value, discard fraction)`
triple of the sweep position `dstar` such that no position strictly
improves on it under the criterion's direction (maximize for `roc_auc`,
minimize for AIC/BIC — `improves`), and `dstar` strictly improves on every
earlier position, i.e. on exact ties the earlier sweep position is
retained. -/
theorem find_best_model_first_optimum (env : Env) (criterion : String)
    (hcrit : criterion = "roc_auc" ∨ criterion = "AIC" ∨ criterion = "BIC")
    (hne : env.discard_thresholds ≠ [])
    (hnd : ∀ d ∈ env.discard_thresholds, allSame (labelsAt env d) = false) :
    ∃ pre post dstar, env.discard_thresholds = pre ++ dstar :: post ∧
      find_best_model env criterion
        = .ok (modelAt env dstar, scoreAt env criterion dstar, dstar) ∧
      (∀ d ∈ env.discard_thresholds,
        ¬ improves criterion (scoreAt env criterion d)
          (scoreAt env criterion dstar)) ∧
      (∀ d ∈ pre,
        improves criterion (scoreAt env criterion dstar)
          (scoreAt env criterion d)) :=
  find_best_model_spec env criterion hcrit hne hnd

/-- A concrete environment for exercising the sweep: one feature, two
rows, a single discard threshold 1/2 whose pseudo-labels are `[0, 1]`. -/
def envSweep : Env :=
  { df_training_data := [("f", [0, 1])]
    dev_data := []
    dev_labels := []
    tbc_data := []
    discard_thresholds := [1/2]
    fitModel := fun _ _ => trivModel }

lemma envSweep_nondegenerate :
    ∀ d ∈ envSweep.discard_thresholds, allSame (labelsAt envSweep d) = false := by
  intro d hd
  have hd2 : d = 1/2 := by
    have : envSweep.discard_thresholds = [1/2] := rfl
    rw [this] at hd
    exact List.mem_singleton.1 hd
  subst hd2
  have hf : Int.fract ((1:ℚ)/2) = 1/2 := by
    rw [Int.fract]
    norm_num
  norm_num [labelsAt, set_cutoffs, add_labels, keysOf, quantile, colOf, valAt,
    nrows, isCE, containsSub, allSame, envSweep, List.insertionSort,
    List.orderedInsert, List.range_succ, hf]
  decide

/-- Witness for C2: the sweep over `[1/2]` with the AIC criterion on a
concrete non-degenerate table. -/
theorem find_best_model_first_optimum_witness :
    (("AIC" : String) = "roc_auc" ∨ ("AIC" : String) = "AIC"
      ∨ ("AIC" : String) = "BIC")
    ∧ envSweep.discard_thresholds ≠ []
    ∧ (∀ d ∈ envSweep.discard_thresholds, allSame (labelsAt envSweep d) = false)
    ∧ (∃ pre post dstar, envSweep.discard_thresholds = pre ++ dstar :: post ∧
        find_best_model envSweep "AIC"
          = .ok (modelAt envSweep dstar, scoreAt envSweep "AIC" dstar, dstar) ∧
        (∀ d ∈ envSweep.discard_thresholds,
          ¬ improves "AIC" (scoreAt envSweep "AIC" d)
            (scoreAt envSweep "AIC" dstar)) ∧
        (∀ d ∈ pre,
          improves "AIC" (scoreAt envSweep "AIC" dstar)
            (scoreAt envSweep "AIC" d))) :=
  ⟨Or.inr (Or.inl rfl), by decide, envSweep_nondegenerate,
    find_best_model_first_optimum envSweep "AIC" (Or.inr (Or.inl rfl))
      (by decide) envSweep_nondegenerate⟩

lemma fbmLoop_degenerate (env : Env) (crit : String)
    (hcrit : crit = "roc_auc" ∨ crit = "AIC" ∨ crit = "BIC") :
    ∀ (ds : List ℚ), (∃ d ∈ ds, allSame (labelsAt env d) = true) →
    ∀ (best : Option (Model × ℝ × ℚ)),
    fbmLoop env crit ds best = .error .degenerateLabels := by
  intro ds
  induction ds with
  | nil =>
    rintro ⟨d, hd, _⟩
    cases hd
  | cons d rest ih =>
    rintro ⟨x, hx, hdeg⟩ best
    by_cases hd : allSame (labelsAt env d) = true
    · simp [fbmLoop, train_logreg, hd]
    · have hdf : allSame (labelsAt env d) = false := by
        cases h : allSame (labelsAt env d)
        · rfl
        · exact absurd h hd
      have hxrest : x ∈ rest := by
        rcases List.mem_cons.1 hx with h | h
        · exact absurd (h ▸ hdeg) hd
        · exact h
      rw [fbmLoop_step env crit hcrit d rest hdf best]
      exact ih ⟨x, hxrest, hdeg⟩ _

/-- C5.  Fitting on a label vector whose entries are all identical fails
with the degenerate-labels error, and when some sweep step produces such a
vector the failure is surfaced by `find_best_model` (the sweep aborts with
that error rather than producing a criterion value for that step). -/
theorem degenerate_labels_fail_and_surface (env : Env) (ys : List ℕ)
    (criterion : String)
    (hcrit : criterion = "roc_auc" ∨ criterion = "AIC" ∨ criterion = "BIC") :
    (allSame ys = true → train_logreg env ys = .error .degenerateLabels)
    ∧ ((∃ d ∈ env.discard_thresholds, allSame (labelsAt env d) = true) →
        find_best_model env criterion = .error .degenerateLabels) := by
  constructor
  · intro h
    simp [train_logreg, h]
  · intro hdeg
    unfold find_best_model
    exact fbmLoop_degenerate env criterion hcrit env.discard_thresholds hdeg none

/-- A concrete environment whose only sweep step (discard fraction 0)
produces the all-ones pseudo-label vector. -/
def envDeg : Env :=
  { df_training_data := [("f", [1, 2, 3])]
    dev_data := []
    dev_labels := []
    tbc_data := []
    discard_thresholds := [0]
    fitModel := fun _ _ => trivModel }

lemma envDeg_degenerate : allSame (labelsAt envDeg 0) = true := by
  have hf : Int.fract ((0:ℚ) * (3 - 1)) = 0 := by
    norm_num
  norm_num [labelsAt, set_cutoffs, add_labels, keysOf, quantile, colOf, valAt,
    nrows, isCE, containsSub, allSame, envDeg, List.insertionSort,
    List.orderedInsert, List.range_succ, hf]
  decide

/-- Witness for C5: a discard fraction of 0 on a concrete table labels
every row 1; fitting fails and the sweep surfaces the error. -/
theorem degenerate_labels_fail_and_surface_witness :
    (("AIC" : String) = "roc_auc" ∨ ("AIC" : String) = "AIC"
      ∨ ("AIC" : String) = "BIC")
    ∧ allSame (labelsAt envDeg 0) = true
    ∧ (allSame (labelsAt envDeg 0) = true →
        train_logreg envDeg (labelsAt envDeg 0) = .error .degenerateLabels)
    ∧ ((∃ d ∈ envDeg.discard_thresholds, allSame (labelsAt envDeg d) = true) →
        find_best_model envDeg "AIC" = .error .degenerateLabels) :=
  ⟨Or.inr (Or.inl rfl), envDeg_degenerate,
    (degenerate_labels_fail_and_surface envDeg (labelsAt envDeg 0) "AIC"
      (Or.inr (Or.inl rfl))).1,
    (degenerate_labels_fail_and_surface envDeg (labelsAt envDeg 0) "AIC"
      (Or.inr (Or.inl rfl))).2⟩

/-- C6 (amended).  If the sweep sequence of discard fractions is empty,
`find_best_model` does not return a result: the loop ends with `best`
still `None` and the final logging statement subscripts it (`best[2]`),
raising a `TypeError` — there is no dedicated `NoCandidateError` anywhere
in the code. -/
theorem find_best_model_empty_sweep_raises_typeError (env : Env)
    (criterion : String) (h : env.discard_thresholds = []) :
    find_best_model env criterion = .error .typeError := by
  unfold find_best_model
  rw [h]
  rfl

/-- A concrete environment with an empty sweep sequence. -/
def envEmpty : Env :=
  { df_training_data := [("f", [1, 2])]
    dev_data := []
    dev_labels := []
    tbc_data := []
    discard_thresholds := []
    fitModel := fun _ _ => trivModel }

/-- Witness for the amended C6 at a concrete environment. -/
theorem find_best_model_empty_sweep_raises_typeError_witness :
    envEmpty.discard_thresholds = []
    ∧ find_best_model envEmpty "AIC" = .error .typeError :=
  ⟨rfl, find_best_model_empty_sweep_raises_typeError envEmpty "AIC" rfl⟩

/-- Counterexample to C6 as stated: on the concrete empty sweep the
selector fails with the generic Python `TypeError` produced by
subscripting `None` in the final logging call, not with a dedicated
`NoCandidateError` (the embedded error type of every failure the code can
raise — `PyError` — has no such error, because the source never defines or
raises one). -/
theorem find_best_model_empty_sweep_counterexample :
    find_best_model envEmpty "roc_auc" = .error .typeError := by
  unfold find_best_model
  rfl

lemma improves_non_roc (crit : String) (h : ¬ crit = "roc_auc") (a b : ℝ) :
    improves crit a b ↔ a < b := by
  unfold improves
  rw [if_neg h]

/-- Uniqueness of the first-optimum decomposition: two decompositions of
the same sweep, first-optimal for score functions that induce the same
strict comparisons, coincide. -/
lemma first_optimum_unique {L pre1 post1 pre2 post2 : List ℚ} {a b : ℚ}
    (S1 S2 : ℚ → ℝ) (hS : ∀ x y, S1 x < S1 y ↔ S2 x < S2 y)
    (h1 : L = pre1 ++ a :: post1) (h2 : L = pre2 ++ b :: post2)
    (o1 : ∀ d ∈ L, ¬ S1 d < S1 a) (f1 : ∀ d ∈ pre1, S1 a < S1 d)
    (o2 : ∀ d ∈ L, ¬ S2 d < S2 b) (f2 : ∀ d ∈ pre2, S2 b < S2 d) :
    pre1 = pre2 ∧ a = b ∧ post1 = post2 := by
  have hmem_a : a ∈ L := h1 ▸ List.mem_append_right pre1 (List.mem_cons_self a post1)
  have hmem_b : b ∈ L := h2 ▸ List.mem_append_right pre2 (List.mem_cons_self b post2)
  rcases Nat.lt_trichotomy pre1.length pre2.length with hlt | heq | hgt
  · exfalso
    have hp1 : (pre1 ++ [a]) <+: L := ⟨post1, by rw [h1]; simp⟩
    have hp2 : pre2 <+: L := ⟨b :: post2, h2.symm⟩
    have hle : (pre1 ++ [a]).length ≤ pre2.length := by
      rw [List.length_append, List.length_singleton]
      omega
    have hapre2 : a ∈ pre2 :=
      (List.prefix_of_prefix_length_le hp1 hp2 hle).subset
        (List.mem_append_right pre1 (List.mem_singleton_self a))
    exact o1 b hmem_b ((hS b a).2 (f2 a hapre2))
  · have := List.append_inj (h1.symm.trans h2) heq
    refine ⟨this.1, ?_, ?_⟩
    · exact (List.cons.injEq _ _ _ _ ▸ this.2).1
    · exact (List.cons.injEq _ _ _ _ ▸ this.2).2
  · exfalso
    have hp2 : (pre2 ++ [b]) <+: L := ⟨post2, by rw [h2]; simp⟩
    have hp1 : pre1 <+: L := ⟨a :: post1, h1.symm⟩
    have hle : (pre2 ++ [b]).length ≤ pre1.length := by
      rw [List.length_append, List.length_singleton]
      omega
    have hbpre1 : b ∈ pre1 :=
      (List.prefix_of_prefix_length_le hp2 hp1 hle).subset
        (List.mem_append_right pre2 (List.mem_singleton_self b))
    exact o2 a hmem_a ((hS a b).1 (f1 b hbpre1))

/-- C10.  The BIC score of any fitted model differs from its AIC score by
the model-independent constant `k·(ln n − 2)`; consequently, on the same
non-degenerate sweep, the selector run with criterion `AIC` and with
criterion `BIC` retains the model of the same sweep step and the same
discard fraction. -/
theorem bic_aic_constant_shift_same_selection (env : Env)
    (hne : env.discard_thresholds ≠ [])
    (hnd : ∀ d ∈ env.discard_thresholds, allSame (labelsAt env d) = false) :
    (∀ ys m, get_bic env ys m - get_aic env ys m
      = (ncols env : ℝ) * (Real.log (nrows env : ℝ) - 2))
    ∧ ∃ dstar ∈ env.discard_thresholds,
        find_best_model env "AIC"
          = .ok (modelAt env dstar, scoreAt env "AIC" dstar, dstar)
        ∧ find_best_model env "BIC"
          = .ok (modelAt env dstar, scoreAt env "BIC" dstar, dstar) := by
  have hconst : ∀ ys m, get_bic env ys m - get_aic env ys m
      = (ncols env : ℝ) * (Real.log (nrows env : ℝ) - 2) := by
    intro ys m
    unfold get_aic get_bic
    ring
  refine ⟨hconst, ?_⟩
  obtain ⟨p1, q1, d1, hdec1, hok1, o1, f1⟩ :=
    find_best_model_spec env "AIC" (Or.inr (Or.inl rfl)) hne hnd
  obtain ⟨p2, q2, d2, hdec2, hok2, o2, f2⟩ :=
    find_best_model_spec env "BIC" (Or.inr (Or.inr rfl)) hne hnd
  have hshift : ∀ d, scoreAt env "BIC" d = scoreAt env "AIC" d
      + (ncols env : ℝ) * (Real.log (nrows env : ℝ) - 2) := by
    intro d
    have hB : scoreAt env "BIC" d
        = get_bic env (labelsAt env d) (modelAt env d) := by
      unfold scoreAt
      rw [if_neg (by decide), if_neg (by decide)]
    have hA : scoreAt env "AIC" d
        = get_aic env (labelsAt env d) (modelAt env d) := by
      unfold scoreAt
      rw [if_neg (by decide), if_pos rfl]
    rw [hB, hA, ← hconst (labelsAt env d) (modelAt env d)]
    ring
  have hS : ∀ x y, scoreAt env "AIC" x < scoreAt env "AIC" y ↔
      scoreAt env "BIC" x < scoreAt env "BIC" y := by
    intro x y
    rw [hshift x, hshift y]
    exact (add_lt_add_iff_right _).symm
  have hd12 := first_optimum_unique (scoreAt env "AIC") (scoreAt env "BIC") hS
    hdec1 hdec2
    (fun d hd hc => o1 d hd ((improves_non_roc "AIC" (by decide) _ _).2 hc))
    (fun d hd => (improves_non_roc "AIC" (by decide) _ _).1 (f1 d hd))
    (fun d hd hc => o2 d hd ((improves_non_roc "BIC" (by decide) _ _).2 hc))
    (fun d hd => (improves_non_roc "BIC" (by decide) _ _).1 (f2 d hd))
  refine ⟨d1, hdec1 ▸ List.mem_append_right p1 (List.mem_cons_self d1 q1),
    hok1, ?_⟩
  rw [hd12.2.1]
  exact hok2

/-- Witness for C10 on the concrete non-degenerate single-step sweep. -/
theorem bic_aic_constant_shift_same_selection_witness :
    envSweep.discard_thresholds ≠ []
    ∧ (∀ d ∈ envSweep.discard_thresholds, allSame (labelsAt envSweep d) = false)
    ∧ ((∀ ys m, get_bic envSweep ys m - get_aic envSweep ys m
        = (ncols envSweep : ℝ) * (Real.log (nrows envSweep : ℝ) - 2))
      ∧ ∃ dstar ∈ envSweep.discard_thresholds,
          find_best_model envSweep "AIC"
            = .ok (modelAt envSweep dstar, scoreAt envSweep "AIC" dstar, dstar)
          ∧ find_best_model envSweep "BIC"
            = .ok (modelAt envSweep dstar, scoreAt envSweep "BIC" dstar, dstar)) :=
  ⟨by decide, envSweep_nondegenerate,
    bic_aic_constant_shift_same_selection envSweep (by decide)
      envSweep_nondegenerate⟩

/-- Counterexample to C4: a concrete training file whose records carry a
`label` field.  `__init__` builds the training table by `load_data` +
`json_normalize` with no `pop('label')`, so the `label` column remains
among the training feature columns (used for cutoffs, training and
prediction). -/
theorem label_kept_in_training_counterexample :
    init_table [(some [("f1", (1:ℚ)), ("label", 1)] : JsonLine)]
      = .ok [("f1", [some 1]), ("label", [some 1])]
    ∧ "label" ∈ ([("f1", [some (1:ℚ)]), ("label", [some 1])].map Prod.fst) :=
  ⟨rfl, by decide⟩

lemma label_not_mem_filtered {α : Type} (l : List (String × α)) :
    "label" ∉ (l.filter (fun p => !(p.1 == "label"))).map Prod.fst := by
  intro hmem
  rcases List.mem_map.1 hmem with ⟨p, hp, hfst⟩
  have := List.of_mem_filter hp
  rw [hfst] at this
  simp at this

/-- C4 (amended).  Only the held-out (`dev_scores`) file has its `label`
field extracted into a separate label vector and removed from the feature
columns; the training (and target) tables are the plain normalization of
their records, keeping a `label` column among the features when present. -/
theorem label_extracted_only_for_dev (ls : List JsonLine)
    (rs : List (List (String × ℚ))) (h : load_data ls = .ok rs) :
    init_table ls = .ok (json_normalize rs)
    ∧ (∀ df labs, init_dev ls = .ok (df, labs) →
        "label" ∉ df.map Prod.fst
        ∧ (json_normalize rs).lookup "label" = some labs
        ∧ df = (json_normalize rs).filter (fun p => !(p.1 == "label"))) := by
  constructor
  · unfold init_table
    rw [h]
    rfl
  · intro df labs hdev
    unfold init_dev at hdev
    rw [h] at hdev
    simp only [Except.bind] at hdev
    cases hl : (json_normalize rs).lookup "label" with
    | none =>
      rw [hl] at hdev
      cases hdev
    | some labs0 =>
      rw [hl] at hdev
      have h1 : (json_normalize rs).filter (fun p => !(p.1 == "label")) = df
          ∧ labs0 = labs := by
        cases hdev
        exact ⟨rfl, rfl⟩
      refine ⟨?_, ?_, h1.1.symm⟩
      · rw [← h1.1]
        exact label_not_mem_filtered _
      · rw [h1.2]

/-- Witness for the amended C4: a concrete dev file with a `label` field. -/
theorem label_extracted_only_for_dev_witness :
    load_data [(some [("f", (2:ℚ)), ("label", 1)] : JsonLine)]
      = .ok [[("f", 2), ("label", 1)]]
    ∧ (init_table [(some [("f", (2:ℚ)), ("label", 1)] : JsonLine)]
        = .ok (json_normalize [[("f", 2), ("label", 1)]])
      ∧ (∀ df labs,
          init_dev [(some [("f", (2:ℚ)), ("label", 1)] : JsonLine)]
            = .ok (df, labs) →
          "label" ∉ df.map Prod.fst
          ∧ (json_normalize [[("f", 2), ("label", 1)]]).lookup "label"
              = some labs
          ∧ df = (json_normalize [[("f", 2), ("label", 1)]]).filter
              (fun p => !(p.1 == "label")))) :=
  ⟨rfl, label_extracted_only_for_dev
    [(some [("f", (2:ℚ)), ("label", 1)] : JsonLine)]
    [[("f", 2), ("label", 1)]] rfl⟩

/-- Counterexample to C7: two lines whose feature-name sets differ
(`{a}` vs `{b}`) are loaded without any error, and normalization produces
a table with both columns, filling the missing entries with NaN (`none`)
— the load does not fail with `MalformedRecordError`. -/
theorem load_differing_keys_counterexample :
    load_data [(some [("a", (1:ℚ))] : JsonLine), (some [("b", 2)] : JsonLine)]
      = .ok [[("a", 1)], [("b", 2)]]
    ∧ json_normalize [[("a", (1:ℚ))], [("b", 2)]]
      = [("a", [some 1, none]), ("b", [none, some 2])] :=
  ⟨rfl, rfl⟩

/-- C7 (amended).  Loading fails with the malformed-record error iff some
line of the file is not valid JSON; rows with differing feature-name sets
are accepted (normalization unions the columns, with NaN for missing
entries), and a successful load returns exactly the parsed records in
order.  The embedded load is a pure function of the file's lines. -/
theorem load_fails_iff_invalid_json (ls : List JsonLine) :
    (load_data ls = .error .malformedRecord ↔ (none : JsonLine) ∈ ls)
    ∧ (∀ rs, load_data ls = .ok rs → ls = rs.map some) := by
  induction ls with
  | nil =>
    constructor
    · constructor
      · intro h
        cases h
      · intro h
        cases h
    · intro rs h
      cases h
      rfl
  | cons l rest ih =>
    match l with
    | (none : JsonLine) =>
      constructor
      · constructor
        · intro _
          exact List.mem_cons_self _ _
        · intro _
          rfl
      · intro rs h
        cases h
    | (some r : JsonLine) =>
      constructor
      · cases hrest : load_data rest with
        | error e =>
          have : load_data ((some r : JsonLine) :: rest) = .error e := by
            show (load_data rest).map (r :: ·) = .error e
            rw [hrest]
            rfl
          rw [this]
          constructor
          · intro he
            have he2 : e = PyError.malformedRecord := by
              cases he
              rfl
            exact List.mem_cons_of_mem _ (ih.1.1 (he2 ▸ hrest))
          · intro hmem
            rcases List.mem_cons.1 hmem with h | h
            · cases h
            · rw [ih.1.2 h] at hrest
              cases hrest
              rfl
        | ok rs =>
          have : load_data ((some r : JsonLine) :: rest) = .ok (r :: rs) := by
            show (load_data rest).map (r :: ·) = .ok (r :: rs)
            rw [hrest]
            rfl
          rw [this]
          constructor
          · intro h
            cases h
          · intro hmem
            rcases List.mem_cons.1 hmem with h | h
            · cases h
            · rw [ih.1.2 h] at hrest
              cases hrest
      · intro rs0 h0
        cases hrest : load_data rest with
        | error e =>
          have : load_data ((some r : JsonLine) :: rest) = .error e := by
            show (load_data rest).map (r :: ·) = .error e
            rw [hrest]
            rfl
          rw [this] at h0
          cases h0
        | ok rs =>
          have : load_data ((some r : JsonLine) :: rest) = .ok (r :: rs) := by
            show (load_data rest).map (r :: ·) = .ok (r :: rs)
            rw [hrest]
            rfl
          rw [this] at h0
          cases h0
          rw [List.map_cons, ← ih.2 rs hrest]

/-- Witness for the amended C7: one valid and one invalid line abort the
load with the malformed-record error; the same file without the invalid
line loads to exactly its records. -/
theorem load_fails_iff_invalid_json_witness :
    (load_data [(some [("a", (1:ℚ))] : JsonLine), (none : JsonLine)]
        = .error .malformedRecord
      ↔ (none : JsonLine) ∈ [(some [("a", (1:ℚ))] : JsonLine), (none : JsonLine)])
    ∧ (∀ rs, load_data [(some [("a", (1:ℚ))] : JsonLine), (none : JsonLine)]
        = .ok rs →
        [(some [("a", (1:ℚ))] : JsonLine), (none : JsonLine)] = rs.map some) :=
  load_fails_iff_invalid_json [(some [("a", (1:ℚ))] : JsonLine), (none : JsonLine)]

lemma digitChar_toNat {d : ℕ} (h : d < 10) : (digitChar d).toNat = d + 48 := by
  interval_cases d <;> rfl

lemma charToDigit_digitChar {d : ℕ} (h : d < 10) :
    charToDigit (digitChar d) = d := by
  unfold charToDigit
  rw [digitChar_toNat h]
  omega

lemma isDigitCh_digitChar {d : ℕ} (h : d < 10) :
    isDigitCh (digitChar d) = true := by
  unfold isDigitCh
  rw [digitChar_toNat h]
  simp
  omega

lemma digitChar_ne_dot {d : ℕ} (h : d < 10) : digitChar d ≠ '.' := by
  intro hc
  have : (digitChar d).toNat = 46 := by rw [hc]; rfl
  rw [digitChar_toNat h] at this
  omega

lemma digitsToNat_append (cs : List Char) (c : Char) :
    digitsToNat (cs ++ [c]) = 10 * digitsToNat cs + charToDigit c := by
  unfold digitsToNat
  rw [List.foldl_append]
  rfl

lemma digitsToNat_rev_map (ds : List ℕ) (h : ∀ d ∈ ds, d < 10) :
    digitsToNat ((ds.map digitChar).reverse) = Nat.ofDigits 10 ds := by
  induction ds with
  | nil => rfl
  | cons d rest ih =>
    rw [List.map_cons, List.reverse_cons, digitsToNat_append,
      ih (fun x hx => h x (List.mem_cons_of_mem d hx)),
      charToDigit_digitChar (h d (List.mem_cons_self d rest)),
      Nat.ofDigits_cons]
    ring

lemma digitsToNat_natChars (n : ℕ) : digitsToNat (natChars n) = n := by
  unfold natChars
  split
  · subst ‹n = 0›
    rfl
  · rw [digitsToNat_rev_map _ (fun d hd => Nat.digits_lt_base (by norm_num) hd),
      Nat.ofDigits_digits]

lemma digitsToNat_replicate_zero (k : ℕ) (cs : List Char) :
    digitsToNat (List.replicate k '0' ++ cs) = digitsToNat cs := by
  induction k with
  | zero => rfl
  | succ k ih =>
    rw [List.replicate_succ, List.cons_append]
    show digitsToNat (List.replicate k '0' ++ cs) = _
    exact ih

lemma digitsToNat_padChars (r : ℕ) : digitsToNat (padChars r) = r := by
  unfold padChars
  rw [digitsToNat_replicate_zero,
    digitsToNat_rev_map _ (fun d hd => Nat.digits_lt_base (by norm_num) hd),
    Nat.ofDigits_digits]

lemma digits_length_le_of_lt {m : ℕ} (h : m < 10 ^ 10) :
    (Nat.digits 10 m).length ≤ 10 := by
  by_cases hm : m = 0
  · subst hm
    simp
  · by_contra hlen
    push_neg at hlen
    have h1 : (10:ℕ) ^ (Nat.digits 10 m).length ≤ 10 * m :=
      Nat.base_pow_length_digits_le 10 m (by norm_num) hm
    have h2 : (10:ℕ) * m < 10 * 10 ^ 10 := by omega
    have h3 : (10:ℕ) ^ (Nat.digits 10 m).length < 10 ^ 11 := by
      calc (10:ℕ) ^ (Nat.digits 10 m).length ≤ 10 * m := h1
        _ < 10 * 10 ^ 10 := h2
        _ = 10 ^ 11 := by norm_num
    have h4 : (Nat.digits 10 m).length < 11 :=
      (Nat.pow_lt_pow_iff_right (by norm_num)).1 h3
    omega

lemma padChars_length {r : ℕ} (h : r < 10 ^ 10) : (padChars r).length = 10 := by
  unfold padChars
  rw [List.length_append, List.length_replicate, List.length_reverse,
    List.length_map]
  have := digits_length_le_of_lt h
  omega

lemma natChars_ne_nil (n : ℕ) : natChars n ≠ [] := by
  unfold natChars
  split
  · simp
  · simp [Nat.digits_ne_nil_iff_ne_zero.2 ‹¬ n = 0›]

lemma natChars_all_digits (n : ℕ) :
    ∀ c ∈ natChars n, isDigitCh c = true := by
  intro c hc
  unfold natChars at hc
  split at hc
  · rw [List.mem_singleton.1 hc]
    rfl
  · rw [List.mem_reverse] at hc
    rcases List.mem_map.1 hc with ⟨d, hd, hdc⟩
    rw [← hdc]
    exact isDigitCh_digitChar (Nat.digits_lt_base (by norm_num) hd)

lemma padChars_all_digits (r : ℕ) :
    ∀ c ∈ padChars r, isDigitCh c = true := by
  intro c hc
  unfold padChars at hc
  rcases List.mem_append.1 hc with h | h
  · rw [List.eq_of_mem_replicate h]
    rfl
  · rw [List.mem_reverse] at h
    rcases List.mem_map.1 h with ⟨d, hd, hdc⟩
    rw [← hdc]
    exact isDigitCh_digitChar (Nat.digits_lt_base (by norm_num) hd)

lemma natChars_no_dot (n : ℕ) : '.' ∉ natChars n := by
  intro hc
  unfold natChars at hc
  split at hc
  · cases List.mem_singleton.1 hc
  · rw [List.mem_reverse] at hc
    rcases List.mem_map.1 hc with ⟨d, hd, hdc⟩
    exact digitChar_ne_dot (Nat.digits_lt_base (by norm_num) hd) hdc

lemma splitDot_append (a b : List Char) (h : '.' ∉ a) :
    splitDot (a ++ '.' :: b) = some (a, b) := by
  induction a with
  | nil =>
    show splitDot ('.' :: b) = some ([], b)
    unfold splitDot
    rw [if_pos rfl]
  | cons c t ih =>
    have hct : c ≠ '.' := fun hc => h (hc ▸ List.mem_cons_self c t)
    show splitDot (c :: (t ++ '.' :: b)) = some (c :: t, b)
    unfold splitDot
    rw [if_neg hct, ih (fun hm => h (List.mem_cons_of_mem c hm))]
    rfl

lemma rnd_nonneg {x : ℚ} (h : 0 ≤ x) : 0 ≤ rnd x := by
  have hf : (0:ℤ) ≤ ⌊x⌋ := Int.floor_nonneg.2 h
  unfold rnd
  split
  · exact hf
  · split
    · omega
    · split <;> omega

lemma rnd_le {x : ℚ} {M : ℤ} (h : x ≤ (M:ℚ)) : rnd x ≤ M := by
  have hfM : ⌊x⌋ ≤ M := by
    have := Int.floor_le_floor h
    rwa [Int.floor_intCast] at this
  by_cases hEq : ⌊x⌋ = M
  · have hxM : x = (M:ℚ) := le_antisymm h (by rw [← hEq]; exact Int.floor_le x)
    have hr : x - (⌊x⌋ : ℚ) < 1/2 := by
      rw [hEq, hxM]
      norm_num
    unfold rnd
    rw [if_pos hr]
    exact hfM
  · have hflt : ⌊x⌋ < M := lt_of_le_of_ne hfM hEq
    unfold rnd
    split
    · exact hfM
    · split
      · omega
      · split <;> omega

/-- Parsing a formatted non-negative probability recovers the value
rounded to ten decimal places. -/
lemma parseFixed10_format10 (q : ℚ) (h0 : 0 ≤ q) :
    parseFixed10 (format10 q) = some ((rnd (q * 10 ^ 10) : ℚ) / 10 ^ 10) := by
  have hN0 : 0 ≤ rnd (q * 10 ^ 10) := rnd_nonneg (by positivity)
  have hNneg : ¬ rnd (q * 10 ^ 10) < 0 := not_lt.2 hN0
  have hfmt : fmtChars q
      = natChars ((rnd (q * 10 ^ 10)).toNat / 10 ^ 10)
        ++ '.' :: padChars ((rnd (q * 10 ^ 10)).toNat % 10 ^ 10) := by
    unfold fmtChars
    rw [if_neg hNneg]
  have hdata : (format10 q).data = fmtChars q := rfl
  unfold parseFixed10
  rw [hdata, hfmt,
    splitDot_append _ _ (natChars_no_dot _), Option.some_bind]
  simp only []
  have hmod : (rnd (q * 10 ^ 10)).toNat % 10 ^ 10 < 10 ^ 10 :=
    Nat.mod_lt _ (by norm_num)
  rw [if_pos ?_]
  · have hip := digitsToNat_natChars ((rnd (q * 10 ^ 10)).toNat / 10 ^ 10)
    have hfr := digitsToNat_padChars ((rnd (q * 10 ^ 10)).toNat % 10 ^ 10)
    rw [hip, hfr]
    congr 1
    have hT : (((rnd (q * 10 ^ 10)).toNat : ℚ)) = ((rnd (q * 10 ^ 10) : ℤ) : ℚ) := by
      exact_mod_cast Int.toNat_of_nonneg hN0
    have key : (((rnd (q * 10 ^ 10)).toNat / 10 ^ 10 : ℕ) : ℚ) * 10 ^ 10
        + (((rnd (q * 10 ^ 10)).toNat % 10 ^ 10 : ℕ) : ℚ)
        = (((rnd (q * 10 ^ 10)).toNat : ℕ) : ℚ) := by
      exact_mod_cast (by omega :
        ((rnd (q * 10 ^ 10)).toNat / 10 ^ 10) * 10 ^ 10
          + (rnd (q * 10 ^ 10)).toNat % 10 ^ 10 = (rnd (q * 10 ^ 10)).toNat)
    field_simp
    rw [key]
    exact hT
  · refine ⟨natChars_ne_nil _, padChars_length hmod, ?_⟩
    rw [List.all_eq_true]
    intro c hc
    rcases List.mem_append.1 hc with h | h
    · exact natChars_all_digits _ c h
    · exact padChars_all_digits _ c h

/-- The number of rows of a table (the length of its first column). -/
def tableRows (t : List (String × List ℚ)) : ℕ :=
  (t.head?.map (fun p => p.2.length)).getD 0

/-- C9.  For a fitted model (one probability pair per row, probabilities in
`[0,1]`), `assign_probabilities` writes exactly one line per row of the
to-be-classified table, in row order; line `i` is the class-1 probability
of row `i` rendered with exactly ten fractional digits, and parses back to
a value in `[0,1]`. -/
theorem assign_probabilities_lines (env : Env) (m : Model)
    (hlen : (m.predict_proba env.tbc_data).length = tableRows env.tbc_data)
    (hprob : ∀ p ∈ m.predict_proba env.tbc_data, 0 ≤ p.2 ∧ p.2 ≤ 1) :
    (assign_probabilities env m).length = tableRows env.tbc_data
    ∧ ∀ i (hi : i < (m.predict_proba env.tbc_data).length),
        (assign_probabilities env m).getD i ""
          = format10 ((m.predict_proba env.tbc_data).get ⟨i, hi⟩).2
        ∧ ∃ v, parseFixed10 ((assign_probabilities env m).getD i "") = some v
            ∧ 0 ≤ v ∧ v ≤ 1 := by
  constructor
  · unfold assign_probabilities
    rw [List.length_map, List.length_map]
    exact hlen
  · intro i hi
    have hgetD : (assign_probabilities env m).getD i ""
        = format10 ((m.predict_proba env.tbc_data).get ⟨i, hi⟩).2 := by
      unfold assign_probabilities
      rw [List.getD_eq_getElem?_getD, List.getElem?_map, List.getElem?_map,
        List.getElem?_eq_getElem hi]
      rfl
    refine ⟨hgetD, ?_⟩
    have hmem : (m.predict_proba env.tbc_data).get ⟨i, hi⟩
        ∈ m.predict_proba env.tbc_data := List.get_mem _ _ _
    obtain ⟨hq0, hq1⟩ := hprob _ hmem
    set q := ((m.predict_proba env.tbc_data).get ⟨i, hi⟩).2 with hqdef
    refine ⟨(rnd (q * 10 ^ 10) : ℚ) / 10 ^ 10, ?_, ?_, ?_⟩
    · rw [hgetD]
      exact parseFixed10_format10 q hq0
    · have := rnd_nonneg (x := q * 10 ^ 10) (by positivity)
      positivity
    · have hle : q * 10 ^ 10 ≤ ((10 ^ 10 : ℤ) : ℚ) := by
        push_cast
        nlinarith
      have hrle : rnd (q * 10 ^ 10) ≤ 10 ^ 10 := rnd_le hle
      rw [div_le_one (by positivity)]
      exact_mod_cast hrle

/-- A concrete model and table for the probability writer. -/
def envProb : Env :=
  { df_training_data := [("f", [1])]
    dev_data := []
    dev_labels := []
    tbc_data := [("f", [3])]
    discard_thresholds := []
    fitModel := fun _ _ => trivModel }

/-- The concrete model used by the C9 witness: one row, probabilities
`(1/2, 1/2)`. -/
def halfModel : Model := ⟨fun _ => [], fun _ => [(1/2, 1/2)]⟩

/-- Witness for C9 at a one-row table and a model returning 1/2. -/
theorem assign_probabilities_lines_witness :
    (halfModel.predict_proba envProb.tbc_data).length = tableRows envProb.tbc_data
    ∧ (∀ p ∈ halfModel.predict_proba envProb.tbc_data, 0 ≤ p.2 ∧ p.2 ≤ 1)
    ∧ ((assign_probabilities envProb halfModel).length = tableRows envProb.tbc_data
      ∧ ∀ i (hi : i < (halfModel.predict_proba envProb.tbc_data).length),
          (assign_probabilities envProb halfModel).getD i ""
            = format10 ((halfModel.predict_proba envProb.tbc_data).get ⟨i, hi⟩).2
          ∧ ∃ v, parseFixed10 ((assign_probabilities envProb halfModel).getD i "")
              = some v ∧ 0 ≤ v ∧ v ≤ 1) := by
  have hprob : ∀ p ∈ halfModel.predict_proba envProb.tbc_data,
      0 ≤ p.2 ∧ p.2 ≤ 1 := by
    intro p hp
    have : p = ((1:ℚ)/2, (1:ℚ)/2) := List.mem_singleton.1 hp
    rw [this]
    norm_num
  exact ⟨rfl, hprob,
    assign_probabilities_lines envProb halfModel rfl hprob⟩

end NHFilter










